import Mathlib

/-!
Shallow embedding of the data-processing pipeline of `src/main.py`
(Advanced Data Sweeper): a Streamlit app that loads CSV/Excel uploads
into pandas dataframes, optionally deduplicates rows and fills missing
numeric values with column means, projects onto selected columns, and
re-exports to a chosen format.

Tables are embedded row-major: a header of column names, a declared
dtype per column, and a list of rows of scalar cells.  Numeric cells
are rationals (pandas floats are modelled exactly), missing cells are
an explicit marker (pandas NaN).  Python / pandas library operations
used by the source (`drop_duplicates`, `fillna(mean)`, `df[cols]`,
`os.path.splitext`, `str.replace`) are translated to Lean functions
below with their documented semantics.
-/

namespace DataSweeper

/-- Scalar cell value of a dataframe: a numeric value (pandas numeric
scalars, modelled as rationals), a text value, or the missing marker
(pandas NaN / NA). -/
inductive Value where
  | num (q : ℚ)
  | text (s : String)
  | missing
deriving DecidableEq, Repr

/-- Declared dtype of a column, as used by `df.select_dtypes(include=number)`:
either numeric or non-numeric. -/
inductive DType where
  | numeric
  | other
deriving DecidableEq, Repr

/-- In-memory table (pandas DataFrame): ordered named columns with a
declared dtype each, and rows positionally aligned across columns. -/
structure Table where
  header : List String
  dtypes : List DType
  rows : List (List Value)
deriving DecidableEq, Repr

/-- Wellformedness invariant of a `Table`: dtypes align with the header
and every row has one cell per column. -/
def Table.wf (T : Table) : Prop :=
  T.dtypes.length = T.header.length ∧ ∀ r ∈ T.rows, r.length = T.header.length

/-- Cleaning options of `clean_data` (the two sidebar checkboxes). -/
structure CleaningOptions where
  removeDuplicates : Bool
  fillMissingNumeric : Bool
deriving DecidableEq, Repr

/-- Accumulator pass behind `drop_duplicates`: keep a row only if no
equal row was seen before it (pandas `keep=first` default). -/
def keepFirstAux (seen : List (List Value)) : List (List Value) → List (List Value)
  | [] => []
  | r :: rest =>
    if r ∈ seen then keepFirstAux seen rest
    else r :: keepFirstAux (r :: seen) rest

/-- Pandas `df.drop_duplicates()`: remove every row equal to an earlier
row, keeping first occurrences in order. -/
def drop_duplicates (rows : List (List Value)) : List (List Value) :=
  keepFirstAux [] rows

/-- Count reported by `clean_data`: `initial_rows - len(df)`. -/
def reportedRemoved (rows : List (List Value)) : Nat :=
  rows.length - (drop_duplicates rows).length

/-- Cells of column `j` of a table, top to bottom (out-of-range reads
give the missing marker; wellformed tables never hit that case). -/
def columnAt (T : Table) (j : Nat) : List Value :=
  T.rows.map (fun r => (r.get? j).getD Value.missing)

/-- Numeric values among a list of cells, in order: what pandas
`mean()` averages (it skips NaN). -/
def numsOf (vs : List Value) : List ℚ :=
  vs.filterMap (fun v => match v with | Value.num q => some q | _ => none)

/-- Pandas `df[col].mean()`: arithmetic mean of the non-missing numeric
cells of column `j`; `none` when there are none (pandas yields NaN,
and `fillna(NaN)` then changes nothing). -/
def colMean (T : Table) (j : Nat) : Option ℚ :=
  let xs := numsOf (columnAt T j)
  if xs.length = 0 then none else some (xs.sum / (xs.length : ℚ))

/-- Effect of `fillna` with the column mean on one cell: a missing cell
of a numeric column becomes the mean when the mean exists; every other
cell is unchanged. -/
def fillCell (dt : DType) (m : Option ℚ) (v : Value) : Value :=
  match dt, m, v with
  | DType.numeric, some q, Value.missing => Value.num q
  | _, _, _ => v

/-- Fill one row, cell by cell, using the dtypes and column means of
the original table `T`. -/
def fillRow (T : Table) (r : List Value) : List Value :=
  r.enum.map (fun p => fillCell ((T.dtypes.get? p.1).getD DType.other) (colMean T p.1) p.2)

/-- Source lines 101-102: `df[numeric_cols] = df[numeric_cols].fillna(df[numeric_cols].mean())`.
Means are those of the original table, so the fill value is stable
across rows. -/
def fillMissingNumeric (T : Table) : Table :=
  { T with rows := T.rows.map (fillRow T) }

/-- Source `clean_data` (lines 93-105): optional deduplication, then
optional mean-fill of missing numeric values. -/
def clean_data (T : Table) (opts : CleaningOptions) : Table :=
  let T1 := if opts.removeDuplicates then { T with rows := drop_duplicates T.rows } else T
  if opts.fillMissingNumeric then fillMissingNumeric T1 else T1

/-- Errors of the pipeline, as explicit variants (the source signals
them through pandas exceptions and `st.error`). -/
inductive PipeError where
  | unknownColumn (c : String)
deriving DecidableEq, Repr

/-- Cells of the column named `c` of row `r` under header `hdr`
(first matching column, as a lookup in the zipped header). -/
def cellNamed (hdr : List String) (r : List Value) (c : String) : Value :=
  ((hdr.zip r).lookup c).getD Value.missing

/-- Cells of the column named `c`, top to bottom. -/
def columnNamed (T : Table) (c : String) : List Value :=
  T.rows.map (fun r => cellNamed T.header r c)

/-- Pandas `df[S]` on a list of column names: fails with a KeyError
naming the first requested column missing from the table, otherwise
projects to exactly the columns of `S` in the order of `S`. -/
def dfSelect (T : Table) (S : List String) : Except PipeError Table :=
  match S.find? (fun c => !(T.header.contains c)) with
  | some c => Except.error (PipeError.unknownColumn c)
  | none =>
    Except.ok
      { header := S
        dtypes := S.map (fun c => ((T.header.zip T.dtypes).lookup c).getD DType.other)
        rows := T.rows.map (fun r => S.map (fun c => cellNamed T.header r c)) }

/-- Source `handle_column_selection` (lines 107-130): return the table
itself when the selection equals the column list; otherwise (the two
remaining source branches both do this) compute `df[selected_columns]`. -/
def handle_column_selection (T : Table) (S : List String) : Except PipeError Table :=
  if S = T.header then Except.ok T
  else if S.toFinset = T.header.toFinset then dfSelect T S
  else dfSelect T S

/-- Index of the last occurrence of `c` in `s`, as Python `rfind`
(none when absent). -/
def lastIndexOfChar (s : List Char) (c : Char) : Option Nat :=
  ((s.enum.filter (fun p => p.2 == c)).map Prod.fst).getLast?

/-- CPython `os.path.splitext` (posix): split at the last dot of the
last path component, except when every character of that component
before the dot is itself a dot (then there is no extension). -/
def splitext (p : List Char) : List Char × List Char :=
  let fi : Nat := match lastIndexOfChar p '/' with
    | none => 0
    | some s => s + 1
  match lastIndexOfChar p '.' with
  | none => (p, [])
  | some d =>
    if fi ≤ d ∧ ((p.drop fi).take (d - fi)).any (fun ch => ch != '.') = true then
      (p.take d, p.drop d)
    else (p, [])

/-- Scanner behind Python `str.replace` for a nonempty pattern: walk
the string left to right; at a match emit `new` and skip the matched
characters (the skip counter carries how many matched characters are
still to be consumed), otherwise copy one character. -/
def pyReplaceAux (old new : List Char) : List Char → Nat → List Char
  | [], _ => []
  | c :: rest, skip =>
    match skip with
    | n + 1 => pyReplaceAux old new rest n
    | 0 =>
      if old.isPrefixOf (c :: rest) then
        new ++ pyReplaceAux old new rest (old.length - 1)
      else c :: pyReplaceAux old new rest 0

/-- Python `str.replace(old, new)`: replace ALL left-to-right
non-overlapping occurrences.  An empty `old` matches at every position,
so the result interleaves `new` between all characters and at both
ends. -/
def pyReplace (s old new : List Char) : List Char :=
  if old = [] then new ++ (s.map (fun c => c :: new)).flatten
  else pyReplaceAux old new s 0

/-- Output format choice (sidebar radio between CSV and Excel). -/
inductive TargetFormat where
  | csv
  | excel
deriving DecidableEq, Repr

/-- New extension chosen by `convert_file`. -/
def newExtOf : TargetFormat → List Char
  | TargetFormat.csv => ".csv".toList
  | TargetFormat.excel => ".xlsx".toList

/-- MIME type chosen by `convert_file`. -/
def mimeOf : TargetFormat → String
  | TargetFormat.csv => "text/csv"
  | TargetFormat.excel => "application/vnd.openxmlformats-officedocument.spreadsheetml.sheet"

/-- Source line 146:
`download_name = file_name.replace(os.path.splitext(file_name)[-1], new_ext)`. -/
def download_name (file_name : List Char) (fmt : TargetFormat) : List Char :=
  pyReplace file_name (splitext file_name).2 (newExtOf fmt)

/-- Outcome of the dispatch in `load_data` (lines 81-91): parse as CSV,
parse as Excel, or reject with the offending (lowercased) extension.
The parse itself is the external pandas reader. -/
inductive LoadAction where
  | parseCsv
  | parseExcel
  | unsupported (ext : List Char)
deriving DecidableEq, Repr

/-- Source line 82: `ext = os.path.splitext(file.name)[-1].lower()`. -/
def extOf (name : List Char) : List Char :=
  (splitext name).2.map Char.toLower

/-- Source `load_data` dispatch: lowercase the extension of the file
name, recognize `.csv` and `.xlsx`, reject anything else, carrying the
offending extension; no table is produced in the reject case. -/
def load_dispatch (name : List Char) : LoadAction :=
  if extOf name = ".csv".toList then LoadAction.parseCsv
  else if extOf name = ".xlsx".toList then LoadAction.parseExcel
  else LoadAction.unsupported (extOf name)

/-- One uploaded file as the Orchestrator sees it: its declared name
and the Loader outcome.  Modelled from the spec: the byte content and
the pandas parse are external to the repository, so a file carries the
table `load_data` produces for it (`none` when loading fails). -/
structure FileInput where
  name : String
  loadResult : Option Table
deriving DecidableEq, Repr

/-- User-visible events emitted by the `main` loop, in order. -/
inductive Event where
  | progress (done total : Nat)
  | warning (fileName : String)
  | download (fileName : String) (result : Table)
  | completed
deriving DecidableEq, Repr

/-- Whether `main` skips a file: `df is None or df.empty`. -/
def skipped (f : FileInput) : Bool :=
  match f.loadResult with
  | none => true
  | some T => T.rows.isEmpty

/-- Body of the `main` loop for one file, after the progress signal:
skip with a warning carrying the file name when the load failed or gave
zero rows; otherwise clean, select (default selection: all columns, so
the selection never fails), and offer the converted download. -/
def processFile (fmt : TargetFormat) (optsOf : String → CleaningOptions) (f : FileInput) :
    List Event :=
  match f.loadResult with
  | none => [Event.warning f.name]
  | some df =>
    if df.rows.isEmpty then [Event.warning f.name]
    else
      let cleaned := clean_data df (optsOf f.name)
      let final := match handle_column_selection cleaned cleaned.header with
        | Except.ok t => t
        | Except.error _ => cleaned
      [Event.download (String.mk (download_name f.name.toList fmt)) final]

/-- The `main` loop (lines 169-192) from file index `i` on: emit the
progress signal, process the file, continue with the rest; after the
final file emit the completion signal. -/
def runFrom (fmt : TargetFormat) (optsOf : String → CleaningOptions) (total : Nat) :
    Nat → List FileInput → List Event
  | _, [] => [Event.completed]
  | i, f :: rest =>
    Event.progress (i + 1) total ::
      (processFile fmt optsOf f ++ runFrom fmt optsOf total (i + 1) rest)

/-- One Orchestrator pass over an upload batch. -/
def runBatch (fmt : TargetFormat) (optsOf : String → CleaningOptions)
    (files : List FileInput) : List Event :=
  runFrom fmt optsOf files.length 0 files

/-- Names carried by the warnings among a list of events. -/
def warningNames (evs : List Event) : List String :=
  evs.filterMap (fun e => match e with | Event.warning n => some n | _ => none)

/-- Number of downloadable results among a list of events. -/
def downloadCount (evs : List Event) : Nat :=
  (evs.filter (fun e => match e with | Event.download _ _ => true | _ => false)).length

/-- Spec-side dedup, written from the words of claim C2: keep the first
occurrence of each distinct row and remove every later duplicate of it,
preserving the order of what remains. -/
def dedupKeepFirstSpec : List (List Value) → List (List Value)
  | [] => []
  | r :: rest => r :: (dedupKeepFirstSpec rest).filter (fun x => decide (x ≠ r))

/-- Spec-side replacement of only the FIRST occurrence of `old`, the
policy claim C3 describes. -/
def replaceFirstOcc (old new : List Char) : List Char → List Char
  | [] => if old.isPrefixOf [] then new else []
  | c :: rest =>
    if old.isPrefixOf (c :: rest) then new ++ (c :: rest).drop old.length
    else c :: replaceFirstOcc old new rest

/-- Split `s` at the left-to-right non-overlapping occurrences of a
nonempty pattern `old`: the pieces between occurrences, in order. -/
def splitOnOcc (s old : List Char) : List (List Char) :=
  if h : old = [] then [s]
  else
    match s with
    | [] => [[]]
    | c :: rest =>
      if old.isPrefixOf (c :: rest) then
        [] :: splitOnOcc ((c :: rest).drop old.length) old
      else
        match splitOnOcc rest old with
        | [] => [[c]]
        | h :: t => (c :: h) :: t
termination_by s.length
decreasing_by
  · have h1 : 0 < old.length := List.length_pos.mpr h
    simp only [List.length_drop, List.length_cons]
    omega
  · simp [Nat.lt_succ_self]

/-! Lemmas about deduplication. -/

theorem keepFirstAux_eq_filter (l : List (List Value)) :
    ∀ seen, keepFirstAux seen l =
      (dedupKeepFirstSpec l).filter (fun x => decide (x ∉ seen)) := by
  induction l with
  | nil => intro seen; simp [keepFirstAux, dedupKeepFirstSpec]
  | cons r rest ih =>
    intro seen
    by_cases hr : r ∈ seen
    · rw [keepFirstAux, if_pos hr, ih seen, dedupKeepFirstSpec]
      rw [List.filter_cons]
      simp only [hr, not_true_eq_false, decide_False, List.filter_filter]
      apply List.filter_congr
      intro x hx
      by_cases hxs : x ∈ seen
      · simp [hxs]
      · have hxr : x ≠ r := fun h => hxs (h ▸ hr)
        simp [hxs, hxr]
    · rw [keepFirstAux, if_neg hr, ih (r :: seen), dedupKeepFirstSpec]
      rw [List.filter_cons]
      simp only [hr, not_false_eq_true, decide_True, if_true, List.filter_filter]
      congr 1
      apply List.filter_congr
      intro x hx
      by_cases hxr : x = r
      · simp [hxr]
      · by_cases hxs : x ∈ seen <;> simp [hxr, hxs]

theorem mem_dedupKeepFirstSpec {x : List Value} :
    ∀ {l : List (List Value)}, x ∈ dedupKeepFirstSpec l ↔ x ∈ l := by
  intro l
  induction l with
  | nil => simp [dedupKeepFirstSpec]
  | cons r rest ih =>
    rw [dedupKeepFirstSpec]
    by_cases hx : x = r
    · simp [hx]
    · simp [List.mem_cons, hx, List.mem_filter, ih]

theorem nodup_dedupKeepFirstSpec : ∀ l : List (List Value), (dedupKeepFirstSpec l).Nodup := by
  intro l
  induction l with
  | nil => simp [dedupKeepFirstSpec]
  | cons r rest ih =>
    rw [dedupKeepFirstSpec]
    refine List.Nodup.cons ?_ (List.Nodup.filter _ ih)
    intro hmem
    have := List.of_mem_filter hmem
    simp at this

theorem dedupKeepFirstSpec_sublist : ∀ l : List (List Value), (dedupKeepFirstSpec l).Sublist l := by
  intro l
  induction l with
  | nil => simp [dedupKeepFirstSpec]
  | cons r rest ih =>
    rw [dedupKeepFirstSpec]
    exact List.Sublist.cons₂ r (List.Sublist.trans (List.filter_sublist _) ih)

theorem drop_duplicates_eq_spec (l : List (List Value)) :
    drop_duplicates l = dedupKeepFirstSpec l := by
  rw [drop_duplicates, keepFirstAux_eq_filter]
  apply List.filter_eq_self.mpr
  intro a _
  simp

theorem dedupKeepFirstSpec_of_nodup :
    ∀ l : List (List Value), l.Nodup → dedupKeepFirstSpec l = l := by
  intro l
  induction l with
  | nil => intro _; rfl
  | cons r rest ih =>
    intro hnd
    rw [dedupKeepFirstSpec, ih (List.Nodup.of_cons hnd)]
    have hr : r ∉ rest := (List.nodup_cons.mp hnd).1
    congr 1
    apply List.filter_eq_self.mpr
    intro a ha
    have : a ≠ r := fun h => hr (h ▸ ha)
    simp [this]

theorem drop_duplicates_idem (l : List (List Value)) :
    drop_duplicates (drop_duplicates l) = drop_duplicates l := by
  rw [drop_duplicates_eq_spec l, drop_duplicates_eq_spec]
  exact dedupKeepFirstSpec_of_nodup _ (nodup_dedupKeepFirstSpec l)

theorem clean_data_dd_eq (T : Table) :
    clean_data T ⟨true, false⟩ = { T with rows := drop_duplicates T.rows } := rfl

/-- C2: with the remove-duplicates option enabled, `clean_data` keeps
exactly the first occurrence of each distinct row in order (its row
list equals the spec-side keep-first dedup, is a duplicate-free
sublist of the original rows and keeps every distinct row), and the
reported removed count is the original row count minus the resulting
row count. -/
theorem clean_data_removeDuplicates_exact :
    ∀ T : Table,
      (clean_data T ⟨true, false⟩).rows = dedupKeepFirstSpec T.rows ∧
      ((clean_data T ⟨true, false⟩).rows).Sublist T.rows ∧
      (∀ r, r ∈ (clean_data T ⟨true, false⟩).rows ↔ r ∈ T.rows) ∧
      ((clean_data T ⟨true, false⟩).rows).Nodup ∧
      reportedRemoved T.rows = T.rows.length - (clean_data T ⟨true, false⟩).rows.length := by
  intro T
  rw [clean_data_dd_eq]
  refine ⟨drop_duplicates_eq_spec T.rows, ?_, ?_, ?_, rfl⟩
  · rw [drop_duplicates_eq_spec]; exact dedupKeepFirstSpec_sublist T.rows
  · intro r; rw [drop_duplicates_eq_spec]; exact mem_dedupKeepFirstSpec
  · rw [drop_duplicates_eq_spec]; exact nodup_dedupKeepFirstSpec T.rows

/-- C9: `clean_data` with the remove-duplicates option enabled is
idempotent: a second run returns the same table and removes zero
additional rows. -/
theorem clean_data_removeDuplicates_idempotent :
    ∀ T : Table,
      clean_data (clean_data T ⟨true, false⟩) ⟨true, false⟩ = clean_data T ⟨true, false⟩ ∧
      reportedRemoved (clean_data T ⟨true, false⟩).rows = 0 := by
  intro T
  rw [clean_data_dd_eq, clean_data_dd_eq]
  constructor
  · simp only [drop_duplicates_idem]
  · simp only [reportedRemoved, drop_duplicates_idem, Nat.sub_self]

/-! Lemmas about the mean fill. -/

theorem fillRow_get? (T : Table) (r : List Value) (j : Nat) :
    (fillRow T r).get? j =
      (r.get? j).map (fillCell ((T.dtypes.get? j).getD DType.other) (colMean T j)) := by
  rw [fillRow, List.get?_map, List.get?_enum]
  cases r.get? j <;> rfl

theorem fillCell_none (dt : DType) (v : Value) : fillCell dt none v = v := by
  cases dt <;> cases v <;> rfl

theorem clean_data_fill_eq (T : Table) (rd : Bool) :
    clean_data T ⟨rd, true⟩ = fillMissingNumeric (clean_data T ⟨rd, false⟩) := by
  cases rd <;> rfl

/-- Example table of claim C1: one numeric column with non-missing
values 10, 20, 30 and one missing entry. -/
def exTable : Table :=
  ⟨["x"], [DType.numeric], [[Value.num 10], [Value.num 20], [Value.num 30], [Value.missing]]⟩

/-- The example table after the mean fill: the missing entry became 20. -/
def exTableFilled : Table :=
  ⟨["x"], [DType.numeric], [[Value.num 10], [Value.num 20], [Value.num 30], [Value.num 20]]⟩

/-- A numeric column whose values are all missing. -/
def allMissingTable : Table :=
  ⟨["x"], [DType.numeric], [[Value.missing], [Value.missing]]⟩

theorem numsOf_exCol : numsOf (columnAt exTable 0) = [10, 20, 30] := by
  rfl

theorem colMean_exTable : colMean exTable 0 = some 20 := by
  rw [colMean]
  simp only [numsOf_exCol]
  norm_num

theorem fillMissingNumeric_exTable : fillMissingNumeric exTable = exTableFilled := by
  have hd : exTable.dtypes = [DType.numeric] := rfl
  have hr : exTable.rows = [[Value.num 10], [Value.num 20], [Value.num 30], [Value.missing]] := rfl
  have hh : exTable.header = ["x"] := rfl
  rw [fillMissingNumeric,
    show exTableFilled =
      ⟨["x"], [DType.numeric], [[Value.num 10], [Value.num 20], [Value.num 30], [Value.num 20]]⟩
      from rfl]
  simp [hr, hd, hh, fillRow, List.enum, List.enumFrom, colMean_exTable, fillCell]

/-- C1: when the fill option is enabled, `clean_data` applies the mean
fill (to the possibly deduplicated table); the fill replaces, in every
numeric column with at least one non-missing value, each missing cell
by the column mean computed on the table before any fill (the same
value for all rows), leaves every other cell unchanged, and leaves a
numeric column with no non-missing values unchanged; on the concrete
column [10, 20, 30, missing] the missing entry becomes 20. -/
theorem clean_data_fillMissingNumeric_mean :
    (∀ (T : Table) (rd : Bool),
        clean_data T ⟨rd, true⟩ = fillMissingNumeric (clean_data T ⟨rd, false⟩)) ∧
    (∀ (T : Table) (j : Nat) (m : ℚ),
        (∀ r ∈ T.rows, r.length = T.dtypes.length) →
        T.dtypes.get? j = some DType.numeric →
        colMean T j = some m →
        columnAt (fillMissingNumeric T) j =
          (columnAt T j).map (fun v => if v = Value.missing then Value.num m else v)) ∧
    (∀ (T : Table) (j : Nat),
        colMean T j = none →
        columnAt (fillMissingNumeric T) j = columnAt T j) ∧
    fillMissingNumeric exTable = exTableFilled ∧
    colMean exTable 0 = some 20 ∧
    fillMissingNumeric allMissingTable = allMissingTable := by
  refine ⟨clean_data_fill_eq, ?_, ?_, fillMissingNumeric_exTable, colMean_exTable, by decide⟩
  · intro T j m hwf hdt hm
    rw [columnAt, columnAt, fillMissingNumeric, List.map_map, List.map_map]
    apply List.map_congr_left
    intro r hr
    simp only [Function.comp_apply, fillRow_get?, hdt, hm, Option.getD_some]
    have hlen : r.length = T.dtypes.length := hwf r hr
    have hj : j < T.dtypes.length := by
      by_contra hge
      rw [List.get?_eq_none.mpr (Nat.le_of_not_lt hge)] at hdt
      exact Option.noConfusion hdt
    obtain ⟨v, hv⟩ : ∃ v, r.get? j = some v := by
      cases hget : r.get? j with
      | none =>
        have := List.get?_eq_none.mp hget
        omega
      | some v => exact ⟨v, rfl⟩
    rw [hv]
    cases v <;> rfl
  · intro T j hm
    rw [columnAt, columnAt, fillMissingNumeric, List.map_map]
    apply List.map_congr_left
    intro r _
    simp only [Function.comp_apply, fillRow_get?, hm]
    cases hget : r.get? j with
    | none => rfl
    | some v => simp [fillCell_none]

/-- Witness for C1 at the concrete example: on the table with numeric
column [10, 20, 30, missing], the filled column is the mean-filled
map of the original column. -/
theorem clean_data_fillMissingNumeric_mean_witness :
    columnAt (fillMissingNumeric exTable) 0 =
      (columnAt exTable 0).map (fun v => if v = Value.missing then Value.num 20 else v) :=
  clean_data_fillMissingNumeric_mean.2.1 exTable 0 20 (by decide) (by decide) colMean_exTable

/-! Lemmas about column selection. -/

theorem cellNamed_of_nodup :
    ∀ (hdr : List String) (j : Nat) (c : String) (r : List Value),
      hdr.Nodup → hdr.get? j = some c →
      cellNamed hdr r c = (r.get? j).getD Value.missing := by
  intro hdr
  induction hdr with
  | nil => intro j c r _ hj; simp at hj
  | cons h hs ih =>
    intro j c r hnd hj
    cases j with
    | zero =>
      rw [List.get?_cons_zero, Option.some_inj] at hj
      subst hj
      cases r with
      | nil => rfl
      | cons v vs => simp [cellNamed, List.lookup]
    | succ j =>
      rw [List.get?_cons_succ] at hj
      have hcs : c ∈ hs := List.get?_mem hj
      have hne : c ≠ h := by
        rintro rfl
        exact (List.nodup_cons.mp hnd).1 hcs
      cases r with
      | nil => rfl
      | cons v vs =>
        rw [List.get?_cons_succ]
        have : cellNamed (h :: hs) (v :: vs) c = cellNamed hs vs c := by
          simp [cellNamed, List.lookup, List.zip, beq_false_of_ne hne]
        rw [this]
        exact ih j c vs (List.Nodup.of_cons hnd) hj

theorem columnNamed_of_nodup (T : Table) (j : Nat) (c : String)
    (hnd : T.header.Nodup) (hj : T.header.get? j = some c) :
    columnNamed T c = columnAt T j := by
  rw [columnNamed, columnAt]
  apply List.map_congr_left
  intro r _
  exact cellNamed_of_nodup T.header j c r hnd hj

theorem dfSelect_ok (T : Table) (S : List String) (hsub : ∀ c ∈ S, c ∈ T.header) :
    dfSelect T S = Except.ok
      { header := S
        dtypes := S.map (fun c => ((T.header.zip T.dtypes).lookup c).getD DType.other)
        rows := T.rows.map (fun r => S.map (fun c => cellNamed T.header r c)) } := by
  rw [dfSelect]
  have hnone : S.find? (fun c => !(T.header.contains c)) = none := by
    rw [List.find?_eq_none]
    intro x hx
    simp [List.contains, hsub x hx]
  rw [hnone]

/-- C5: selecting the full column list in original order is the
identity: `handle_column_selection` returns the table itself. -/
theorem handle_column_selection_identity :
    ∀ T : Table, handle_column_selection T T.header = Except.ok T := by
  intro T
  rw [handle_column_selection, if_pos rfl]

/-- C6: for a selection that is a subset of the column names of a
table with distinct column names, including the empty selection, the
selection succeeds, keeps the row count, and the resulting columns are
exactly those named in the selection, in its order. -/
theorem handle_column_selection_subset :
    ∀ (T : Table) (S : List String),
      T.header.Nodup →
      (∀ c ∈ S, c ∈ T.header) →
      ∃ T', handle_column_selection T S = Except.ok T' ∧
        T'.rows.length = T.rows.length ∧
        T'.header = S ∧
        (∀ j c, S.get? j = some c → columnAt T' j = columnNamed T c) := by
  intro T S hnd hsub
  by_cases hS : S = T.header
  · refine ⟨T, ?_, rfl, hS.symm, ?_⟩
    · rw [handle_column_selection, if_pos hS]
    · intro j c hj
      subst hS
      exact (columnNamed_of_nodup T j c hnd hj).symm
  · have hsel : handle_column_selection T S = dfSelect T S := by
      rw [handle_column_selection, if_neg hS, ite_self]
    rw [hsel, dfSelect_ok T S hsub]
    refine ⟨_, rfl, by simp, rfl, ?_⟩
    intro j c hj
    rw [columnAt, columnNamed]
    simp only [List.map_map]
    apply List.map_congr_left
    intro r _
    simp only [Function.comp_apply, List.get?_map, hj, Option.map_some', Option.getD_some]

/-- Witness for C6: selecting the single column b of a two-column
table succeeds with one column and both rows. -/
theorem handle_column_selection_subset_witness :
    ∃ T', handle_column_selection
        ⟨["a", "b"], [DType.numeric, DType.other],
          [[Value.num 1, Value.text "u"], [Value.num 2, Value.text "v"]]⟩ ["b"] =
          Except.ok T' ∧
      T'.rows.length =
        (⟨["a", "b"], [DType.numeric, DType.other],
          [[Value.num 1, Value.text "u"], [Value.num 2, Value.text "v"]]⟩ : Table).rows.length ∧
      T'.header = ["b"] ∧
      (∀ j c, (["b"] : List String).get? j = some c →
        columnAt T' j =
          columnNamed
            ⟨["a", "b"], [DType.numeric, DType.other],
              [[Value.num 1, Value.text "u"], [Value.num 2, Value.text "v"]]⟩ c) :=
  handle_column_selection_subset
    ⟨["a", "b"], [DType.numeric, DType.other],
      [[Value.num 1, Value.text "u"], [Value.num 2, Value.text "v"]]⟩ ["b"]
    (by decide) (by decide)

/-- C8: a selection containing a column name absent from the table
fails with the unknown-column error naming an offending column, and no
table is returned; concretely, requesting the absent column Foo fails
with that name. -/
theorem handle_column_selection_unknown :
    (∀ (T : Table) (S : List String),
        (∃ c ∈ S, c ∉ T.header) →
        ∃ c, c ∈ S ∧ c ∉ T.header ∧
          handle_column_selection T S = Except.error (PipeError.unknownColumn c)) ∧
    handle_column_selection exTable ["Foo"] = Except.error (PipeError.unknownColumn "Foo") := by
  constructor
  · intro T S hex
    have hS : S ≠ T.header := by
      rintro rfl
      obtain ⟨c, hc, hnc⟩ := hex
      exact hnc hc
    have hsel : handle_column_selection T S = dfSelect T S := by
      rw [handle_column_selection, if_neg hS, ite_self]
    have hsome : (S.find? (fun c => !(T.header.contains c))).isSome := by
      rw [List.find?_isSome]
      obtain ⟨c, hc, hnc⟩ := hex
      exact ⟨c, hc, by simp [List.contains, hnc]⟩
    obtain ⟨c, hc⟩ := Option.isSome_iff_exists.mp hsome
    refine ⟨c, List.mem_of_find?_eq_some hc, ?_, ?_⟩
    · have hp := List.find?_some hc
      simpa [List.contains] using hp
    · rw [hsel, dfSelect, hc]
  · rfl

/-- Witness for C8 at a concrete input: requesting column Foo from the
example table fails with the unknown-column error. -/
theorem handle_column_selection_unknown_witness :
    ∃ c, c ∈ ["Foo"] ∧ c ∉ exTable.header ∧
      handle_column_selection exTable ["Foo"] = Except.error (PipeError.unknownColumn c) :=
  handle_column_selection_unknown.1 exTable ["Foo"] ⟨"Foo", by decide, by decide⟩

/-! Loader dispatch. -/

/-- C7: a file whose (case-insensitively compared) extension is
neither .csv nor .xlsx is rejected by the Loader dispatch with the
offending extension and no table is produced (the unsupported outcome
carries only the extension); concretely report.txt is rejected
carrying .txt. -/
theorem load_dispatch_unsupported :
    (∀ name : List Char,
        extOf name ≠ ".csv".toList →
        extOf name ≠ ".xlsx".toList →
        load_dispatch name = LoadAction.unsupported (extOf name)) ∧
    load_dispatch "report.txt".toList = LoadAction.unsupported ".txt".toList := by
  constructor
  · intro name h1 h2
    rw [load_dispatch, if_neg h1, if_neg h2]
  · decide

/-- Witness for C7 at a concrete input: a Markdown file is rejected
with its own extension. -/
theorem load_dispatch_unsupported_witness :
    load_dispatch "notes.md".toList = LoadAction.unsupported (extOf "notes.md".toList) :=
  load_dispatch_unsupported.1 "notes.md".toList (by decide) (by decide)

/-! Exporter file-name computation. -/

theorem intercalate_single (sep x : List Char) : List.intercalate sep [x] = x := by
  simp [List.intercalate]

theorem intercalate_cons₂ (sep x y : List Char) (t : List (List Char)) :
    List.intercalate sep (x :: y :: t) = x ++ sep ++ List.intercalate sep (y :: t) := by
  simp [List.intercalate, List.append_assoc]

theorem pyReplaceAux_skip (old new : List Char) :
    ∀ (s : List Char) (n : Nat), pyReplaceAux old new s n = pyReplaceAux old new (s.drop n) 0 := by
  intro s
  induction s with
  | nil => intro n; simp [pyReplaceAux]
  | cons c rest ih =>
    intro n
    cases n with
    | zero => rfl
    | succ m =>
      show pyReplaceAux old new rest m = pyReplaceAux old new ((c :: rest).drop (m + 1)) 0
      rw [ih m, List.drop_succ_cons]

theorem pyReplaceAux_cons (old new : List Char) (c : Char) (rest : List Char) (h : old ≠ []) :
    pyReplaceAux old new (c :: rest) 0 =
      if old.isPrefixOf (c :: rest) then
        new ++ pyReplaceAux old new ((c :: rest).drop old.length) 0
      else c :: pyReplaceAux old new rest 0 := by
  obtain ⟨k, hk⟩ : ∃ k, old.length = k + 1 := by
    cases hol : old with
    | nil => exact absurd hol h
    | cons a t => exact ⟨t.length, by simp [hol]⟩
  show (if old.isPrefixOf (c :: rest) then new ++ pyReplaceAux old new rest (old.length - 1)
        else c :: pyReplaceAux old new rest 0) = _
  by_cases hp : old.isPrefixOf (c :: rest)
  · rw [if_pos hp, if_pos hp, pyReplaceAux_skip old new rest (old.length - 1), hk]
    simp [List.drop_succ_cons]
  · rw [if_neg hp, if_neg hp]

theorem splitOnOcc_nil (old : List Char) : splitOnOcc [] old = [[]] := by
  unfold splitOnOcc
  split <;> rfl

theorem splitOnOcc_cons_pos (old : List Char) (c : Char) (rest : List Char)
    (h : old ≠ []) (hp : old.isPrefixOf (c :: rest)) :
    splitOnOcc (c :: rest) old = [] :: splitOnOcc ((c :: rest).drop old.length) old := by
  rw [splitOnOcc.eq_def, dif_neg h]
  dsimp only
  rw [if_pos hp]

theorem splitOnOcc_cons_neg (old : List Char) (c : Char) (rest : List Char)
    (h : old ≠ []) (hp : ¬ old.isPrefixOf (c :: rest)) (x : List Char) (t : List (List Char))
    (hxt : splitOnOcc rest old = x :: t) :
    splitOnOcc (c :: rest) old = (c :: x) :: t := by
  rw [splitOnOcc.eq_def, dif_neg h]
  dsimp only
  rw [if_neg hp, hxt]

theorem splitOnOcc_ne_nil (s old : List Char) : splitOnOcc s old ≠ [] := by
  rw [splitOnOcc.eq_def]
  split
  · simp
  · cases s with
    | nil => simp
    | cons c rest =>
      dsimp only
      split
      · simp
      · cases splitOnOcc rest old <;> simp

theorem pyReplace_eq_intercalate (old new : List Char) (h : old ≠ []) :
    ∀ s : List Char, pyReplace s old new = List.intercalate new (splitOnOcc s old) := by
  have main : ∀ (n : Nat) (s : List Char), s.length ≤ n →
      pyReplaceAux old new s 0 = List.intercalate new (splitOnOcc s old) := by
    intro n
    induction n with
    | zero =>
      intro s hs
      have hnil : s = [] := List.length_eq_zero.mp (Nat.le_zero.mp hs)
      subst hnil
      rw [splitOnOcc_nil, intercalate_single]
      rfl
    | succ n ih =>
      intro s hs
      cases s with
      | nil => rw [splitOnOcc_nil, intercalate_single]; rfl
      | cons c rest =>
        rw [pyReplaceAux_cons old new c rest h]
        by_cases hp : old.isPrefixOf (c :: rest)
        · rw [if_pos hp, splitOnOcc_cons_pos old c rest h hp]
          have h1 : 0 < old.length := List.length_pos.mpr h
          have hlen : ((c :: rest).drop old.length).length ≤ n := by
            simp only [List.length_drop, List.length_cons]
            simp only [List.length_cons] at hs
            omega
          rw [ih _ hlen]
          obtain ⟨x, t, hxt⟩ : ∃ x t, splitOnOcc ((c :: rest).drop old.length) old = x :: t := by
            cases hq : splitOnOcc ((c :: rest).drop old.length) old with
            | nil => exact absurd hq (splitOnOcc_ne_nil _ _)
            | cons x t => exact ⟨x, t, rfl⟩
          rw [hxt, intercalate_cons₂]
          simp
        · have hlen : rest.length ≤ n := by
            simp only [List.length_cons] at hs
            omega
          obtain ⟨x, t, hxt⟩ : ∃ x t, splitOnOcc rest old = x :: t := by
            cases hq : splitOnOcc rest old with
            | nil => exact absurd hq (splitOnOcc_ne_nil _ _)
            | cons x t => exact ⟨x, t, rfl⟩
          rw [if_neg hp, splitOnOcc_cons_neg old c rest h hp x t hxt, ih rest hlen, hxt]
          cases t with
          | nil => rw [intercalate_single, intercalate_single]
          | cons y t' => rw [intercalate_cons₂, intercalate_cons₂]; simp
  intro s
  simp only [pyReplace, if_neg h]
  exact main s.length s (Nat.le_refl _)

theorem intercalate_cons_ne_nil (sep x : List Char) (l : List (List Char)) (h : l ≠ []) :
    List.intercalate sep (x :: l) = x ++ sep ++ List.intercalate sep l := by
  cases l with
  | nil => exact absurd rfl h
  | cons y t => exact intercalate_cons₂ sep x y t

theorem intercalate_singleton_pieces (new : List Char) :
    ∀ l : List Char,
      List.intercalate new (l.map (fun c => [c]) ++ [[]]) =
        (l.map (fun c => c :: new)).flatten := by
  intro l
  induction l with
  | nil => simp [intercalate_single]
  | cons c rest ih =>
    rw [List.map_cons, List.cons_append, intercalate_cons_ne_nil _ _ _ (by simp), ih,
      List.map_cons, List.flatten_cons]
    simp

theorem interleave_flatten_length (new : List Char) :
    ∀ name : List Char,
      ((name.map (fun c => c :: new)).flatten).length = name.length * (new.length + 1) := by
  intro name
  induction name with
  | nil => simp
  | cons c rest ih =>
    simp only [List.map_cons, List.flatten_cons, List.length_append, List.length_cons, ih]
    ring

theorem download_name_of_empty_ext (name : List Char) (fmt : TargetFormat)
    (hext : (splitext name).2 = []) :
    download_name name fmt =
      newExtOf fmt ++ (name.map (fun c => c :: newExtOf fmt)).flatten := by
  simp only [download_name]
  rw [hext]
  rfl

/-- C10: for every original file name on which the extension splitter
yields the empty extension, the download-name computation substitutes
the new extension for every occurrence of the empty pattern, inserting
it at every character boundary of the name, once before every
character and once at the end; for a nonempty such name this differs
from appending the new extension once; concretely, data exported to
CSV becomes .csvd.csva.csvt.csva.csv. -/
theorem download_name_empty_extension :
    (∀ (name : List Char) (fmt : TargetFormat),
        (splitext name).2 = [] →
        download_name name fmt =
          List.intercalate (newExtOf fmt) ([] :: name.map (fun c => [c]) ++ [[]])) ∧
    (∀ (name : List Char) (fmt : TargetFormat),
        (splitext name).2 = [] → name ≠ [] →
        download_name name fmt ≠ name ++ newExtOf fmt) ∧
    (splitext "data".toList).2 = [] ∧
    download_name "data".toList TargetFormat.csv = ".csvd.csva.csvt.csva.csv".toList := by
  refine ⟨?_, ?_, by decide, by decide⟩
  · intro name fmt hext
    rw [download_name_of_empty_ext name fmt hext, List.cons_append,
      intercalate_cons_ne_nil (newExtOf fmt) [] (name.map (fun c => [c]) ++ [[]]) (by simp),
      intercalate_singleton_pieces]
    simp
  · intro name fmt hext hne heq
    rw [download_name_of_empty_ext name fmt hext] at heq
    have hlen := congrArg List.length heq
    rw [List.length_append, List.length_append, interleave_flatten_length] at hlen
    have hnew : 0 < (newExtOf fmt).length := by cases fmt <;> decide
    have hn : 0 < name.length := List.length_pos.mpr hne
    have h2 : name.length * 2 ≤ name.length * ((newExtOf fmt).length + 1) :=
      Nat.mul_le_mul_left name.length (by omega)
    set k := name.length * ((newExtOf fmt).length + 1) with hk
    omega

/-- Witness for C10 at the concrete input: the extensionless name data
exported to CSV follows the insert-at-every-boundary computation. -/
theorem download_name_empty_extension_witness :
    download_name "data".toList TargetFormat.csv =
      List.intercalate (newExtOf TargetFormat.csv)
        ([] :: "data".toList.map (fun c => [c]) ++ [[]]) :=
  download_name_empty_extension.1 "data".toList TargetFormat.csv (by decide)

/-- C3 counterexample: exporting a.csv.csv to Excel, the source
replaces BOTH occurrences of .csv, giving a.xlsx.xlsx, while replacing
only the first occurrence would give a.xlsx.csv. -/
theorem download_name_not_first_occurrence_only :
    download_name "a.csv.csv".toList TargetFormat.excel = "a.xlsx.xlsx".toList ∧
    replaceFirstOcc (splitext "a.csv.csv".toList).2 (newExtOf TargetFormat.excel)
        "a.csv.csv".toList = "a.xlsx.csv".toList ∧
    download_name "a.csv.csv".toList TargetFormat.excel ≠
      replaceFirstOcc (splitext "a.csv.csv".toList).2 (newExtOf TargetFormat.excel)
        "a.csv.csv".toList :=
  ⟨by decide, by decide, by decide⟩

/-- C3 (amended): for every original file name with a nonempty
extension, the exporter computes the output name by replacing EVERY
left-to-right occurrence of the original extension substring with the
new extension (the pieces of the name between occurrences, joined by
the new extension). -/
theorem download_name_replaces_every_occurrence :
    (∀ (file_name : List Char) (fmt : TargetFormat),
        (splitext file_name).2 ≠ [] →
        download_name file_name fmt =
          List.intercalate (newExtOf fmt) (splitOnOcc file_name (splitext file_name).2)) ∧
    download_name "a.csv.csv".toList TargetFormat.excel = "a.xlsx.xlsx".toList := by
  constructor
  · intro fn fmt hne
    simp only [download_name]
    exact pyReplace_eq_intercalate _ _ hne fn
  · decide

/-- Witness for the amended C3 at a concrete input: converting
report.csv to CSV follows the replace-every-occurrence computation. -/
theorem download_name_replaces_every_occurrence_witness :
    download_name "report.csv".toList TargetFormat.csv =
      List.intercalate (newExtOf TargetFormat.csv)
        (splitOnOcc "report.csv".toList (splitext "report.csv".toList).2) :=
  download_name_replaces_every_occurrence.1 "report.csv".toList TargetFormat.csv (by decide)

/-! Orchestrator. -/

theorem handle_column_selection_self (T : Table) :
    handle_column_selection T T.header = Except.ok T := by
  rw [handle_column_selection, if_pos rfl]

theorem processFile_skipped (fmt : TargetFormat) (optsOf : String → CleaningOptions)
    (f : FileInput) (h : skipped f = true) :
    processFile fmt optsOf f = [Event.warning f.name] := by
  cases hl : f.loadResult with
  | none => simp [processFile, hl]
  | some df =>
    have hemp : df.rows.isEmpty = true := by rw [skipped, hl] at h; exact h
    simp [processFile, hl, hemp]

theorem processFile_not_skipped (fmt : TargetFormat) (optsOf : String → CleaningOptions)
    (f : FileInput) (h : skipped f = false) :
    ∃ nm tbl, processFile fmt optsOf f = [Event.download nm tbl] := by
  cases hl : f.loadResult with
  | none => simp [skipped, hl] at h
  | some df =>
    have hemp : df.rows.isEmpty = false := by rw [skipped, hl] at h; exact h
    refine ⟨String.mk (download_name f.name.toList fmt), clean_data df (optsOf f.name), ?_⟩
    simp [processFile, hl, hemp, handle_column_selection_self]

theorem warningNames_append (l₁ l₂ : List Event) :
    warningNames (l₁ ++ l₂) = warningNames l₁ ++ warningNames l₂ := by
  simp [warningNames]

theorem warningNames_progress (d t : Nat) (l : List Event) :
    warningNames (Event.progress d t :: l) = warningNames l := rfl

theorem warningNames_warning (n : String) (l : List Event) :
    warningNames (Event.warning n :: l) = n :: warningNames l := rfl

theorem warningNames_download (n : String) (tbl : Table) (l : List Event) :
    warningNames (Event.download n tbl :: l) = warningNames l := rfl

theorem downloadCount_append (l₁ l₂ : List Event) :
    downloadCount (l₁ ++ l₂) = downloadCount l₁ + downloadCount l₂ := by
  simp [downloadCount]

theorem downloadCount_progress (d t : Nat) (l : List Event) :
    downloadCount (Event.progress d t :: l) = downloadCount l := rfl

theorem downloadCount_warning (n : String) (l : List Event) :
    downloadCount (Event.warning n :: l) = downloadCount l := rfl

theorem downloadCount_download (n : String) (tbl : Table) (l : List Event) :
    downloadCount (Event.download n tbl :: l) = downloadCount l + 1 := by
  simp [downloadCount, List.filter_cons]

theorem warningNames_runFrom (fmt : TargetFormat) (optsOf : String → CleaningOptions)
    (total : Nat) :
    ∀ (files : List FileInput) (i : Nat),
      warningNames (runFrom fmt optsOf total i files) =
        (files.filter (fun f => skipped f)).map FileInput.name := by
  intro files
  induction files with
  | nil => intro i; rfl
  | cons f rest ih =>
    intro i
    rw [runFrom, warningNames_progress, warningNames_append]
    by_cases hf : skipped f = true
    · rw [processFile_skipped fmt optsOf f hf, warningNames_warning, ih (i + 1)]
      simp [List.filter_cons, hf, warningNames]
    · have hf' : skipped f = false := Bool.eq_false_iff.mpr hf
      obtain ⟨nm, tbl, hp⟩ := processFile_not_skipped fmt optsOf f hf'
      rw [hp, warningNames_download, ih (i + 1)]
      simp [List.filter_cons, hf', warningNames]

theorem downloadCount_runFrom (fmt : TargetFormat) (optsOf : String → CleaningOptions)
    (total : Nat) :
    ∀ (files : List FileInput) (i : Nat),
      downloadCount (runFrom fmt optsOf total i files) =
        (files.filter (fun f => !(skipped f))).length := by
  intro files
  induction files with
  | nil => intro i; rfl
  | cons f rest ih =>
    intro i
    rw [runFrom, downloadCount_progress, downloadCount_append]
    by_cases hf : skipped f = true
    · rw [processFile_skipped fmt optsOf f hf, downloadCount_warning, ih (i + 1)]
      simp [List.filter_cons, hf, downloadCount]
    · have hf' : skipped f = false := Bool.eq_false_iff.mpr hf
      obtain ⟨nm, tbl, hp⟩ := processFile_not_skipped fmt optsOf f hf'
      rw [hp, downloadCount_download, ih (i + 1)]
      simp [List.filter_cons, hf', downloadCount]
      omega

theorem runFrom_getLast? (fmt : TargetFormat) (optsOf : String → CleaningOptions)
    (total : Nat) :
    ∀ (files : List FileInput) (i : Nat),
      (runFrom fmt optsOf total i files).getLast? = some Event.completed := by
  intro files
  induction files with
  | nil => intro i; rfl
  | cons f rest ih =>
    intro i
    rw [runFrom, List.getLast?_cons, List.getLast?_append, ih (i + 1)]
    rfl

/-- Upload batch of claim C4: three files, the second of which loads
with zero rows. -/
def exBatch : List FileInput :=
  [⟨"a.csv", some ⟨["x"], [DType.numeric], [[Value.num 1]]⟩⟩,
   ⟨"b.csv", some ⟨["x"], [DType.numeric], []⟩⟩,
   ⟨"c.csv", some ⟨["x"], [DType.numeric], [[Value.num 2]]⟩⟩]

/-- C4: over any upload batch the main loop emits one skip-warning,
carrying the file name, for exactly the files whose load failed or
gave zero rows, one download for every other file (no failure aborts
the batch), and ends with the completion signal; on the concrete
3-file batch with an empty second file it yields 2 downloads, the one
warning for the second file, and the completion signal. -/
theorem orchestrator_skip_warn_complete :
    (∀ (fmt : TargetFormat) (optsOf : String → CleaningOptions) (files : List FileInput),
        warningNames (runBatch fmt optsOf files) =
          (files.filter (fun f => skipped f)).map FileInput.name) ∧
    (∀ (fmt : TargetFormat) (optsOf : String → CleaningOptions) (files : List FileInput),
        downloadCount (runBatch fmt optsOf files) =
          (files.filter (fun f => !(skipped f))).length) ∧
    (∀ (fmt : TargetFormat) (optsOf : String → CleaningOptions) (files : List FileInput),
        (runBatch fmt optsOf files).getLast? = some Event.completed) ∧
    downloadCount (runBatch TargetFormat.csv (fun _ => ⟨false, false⟩) exBatch) = 2 ∧
    warningNames (runBatch TargetFormat.csv (fun _ => ⟨false, false⟩) exBatch) = ["b.csv"] ∧
    (runBatch TargetFormat.csv (fun _ => ⟨false, false⟩) exBatch).getLast? =
      some Event.completed := by
  refine ⟨?_, ?_, ?_, by decide, by decide, by decide⟩
  · intro fmt optsOf files
    exact warningNames_runFrom fmt optsOf files.length files 0
  · intro fmt optsOf files
    exact downloadCount_runFrom fmt optsOf files.length files 0
  · intro fmt optsOf files
    exact runFrom_getLast? fmt optsOf files.length files 0

end DataSweeper
